import Mathlib

set_option maxRecDepth 100000

/-!
Verification of the `old-coin-changing` crate (`src/lib.rs`).

The core of the crate is `coin_change`, a bottom-up minimum-coin dynamic
program with path reconstruction.  The surrounding value objects
(`Currency`, `Wallet`, `Price`) are modelled as well, since several claims
concern them.

Modelling conventions:
* Rust `usize` values are modelled as `Nat`.  Where overflow or underflow
  of `usize` matters (the unguarded `-= 1` in `Wallet::remove_currency`)
  the wrap-around is made explicit with `% 2 ^ 64`; elsewhere the values
  stay far below `2 ^ 64` and plain `Nat` arithmetic coincides with `usize`.
* The `Vec<usize>` tables `C`, `P`, `S` of `coin_change` are modelled as
  total functions `Nat → Nat` (explicit state passing).  All table reads
  performed by the source are at provably in-range indices, except in the
  reconstruction loop, where the source can panic: there the model checks
  the offending condition and returns `none`.
* A `none` result of the model corresponds to the source not returning
  normally (an index/underflow panic, or the loop `while v > 0` never
  terminating when a zero denomination is selected).
-/

/-- Pointwise update of a function table: the model of `a[i] = x` on a `Vec`. -/
def updFn (f : Nat → Nat) (i x : Nat) : Nat → Nat :=
  fun j => if j = i then x else f j

/-- The inner loop `for i in 0..k` of `coin_change` for a fixed amount `w`:
scan the remaining denominations `cs` (the full list starts at index `i = 0`),
and whenever `coins[i] <= w && C[w - coins[i]] + 1 < C[w]`, update
`C[w] = C[w - coins[i]] + 1` and `P[w] = i`. -/
def scanGo (w : Nat) : List Nat → Nat → (Nat → Nat) → (Nat → Nat) →
    (Nat → Nat) × (Nat → Nat)
  | [], _, C, P => (C, P)
  | c :: rest, i, C, P =>
    if c ≤ w ∧ C (w - c) + 1 < C w then
      scanGo w rest (i + 1) (updFn C w (C (w - c) + 1)) (updFn P w i)
    else
      scanGo w rest (i + 1) C P

/-- The table construction of `coin_change` for a positive target `v`:
`C` is initialised to `(0..=v).collect()` (as a function, the identity),
the assignment `C[1] = 1` is kept (it is a no-op on that initial table),
`P` is initialised to `vec![0; v + 1]`, and then the outer loop runs
`for w in 2..=v`. -/
def buildTables (coins : List Nat) (v : Nat) : (Nat → Nat) × (Nat → Nat) :=
  (List.range' 2 (v - 1)).foldl (fun CP w => scanGo w coins 0 CP.1 CP.2)
    (updFn (fun u => u) 1 1, fun _ => 0)

/-- The reconstruction loop `while v > 0 { i = P[v]; S[i] += 1; v -= coins[i] }`.
`fuel` bounds the number of iterations (the source loop has no bound; the
model is called with `fuel = v`, which suffices whenever it terminates).
`none` models a panic: `P[v]` out of range of `coins`/`S` (the source would
panic at `S[i] += 1`), or `coins[i] > v` (the source `v -= coins[i]`
underflows: a panic in debug builds, and a wrap followed by an
out-of-bounds `P[v]` panic in release builds), or a zero denomination being
selected forever (the source loops forever). -/
def reconstruct (coins : List Nat) (P : Nat → Nat) :
    Nat → Nat → (Nat → Nat) → Option (Nat → Nat)
  | 0, v, S => if v = 0 then some S else none
  | fuel + 1, v, S =>
    if v = 0 then some S else
      match coins.get? (P v) with
      | none => none
      | some c =>
        if c ≤ v then
          reconstruct coins P fuel (v - c) (updFn S (P v) (S (P v) + 1))
        else none

/-- The emission loop of `coin_change`:
`while k > 0 { while S[k-1] > 0 { to_return.push(coins[k-1]); S[k-1] -= 1 } k -= 1 }`,
i.e. for each index from `k - 1` down to `0`, push `coins[index]` once per
recorded usage count `S[index]`. -/
def emitDown (coins : List Nat) (S : Nat → Nat) : Nat → List Nat
  | 0 => []
  | k + 1 => List.replicate (S k) (coins.getD k 0) ++ emitDown coins S k

/-- Model of `pub fn coin_change(coins: &[usize], target: usize) -> Vec<usize>`.
`some l` means the source returns the vector `l`; `none` means the source
panics (or loops forever) instead of returning. -/
def coin_change (coins : List Nat) (target : Nat) : Option (List Nat) :=
  if target = 0 then some []
  else
    match reconstruct coins (buildTables coins target).2 target target (fun _ => 0) with
    | none => none
    | some S => some (emitDown coins S coins.length)

/-- `const CURRENCIES_AS_HALFPENCE: [usize; 11]`. -/
def CURRENCIES_AS_HALFPENCE : List Nat :=
  [1, 2, 6, 12, 24, 48, 60, 120, 480, 2400, 4800]

/-- `pub enum Currency`. -/
inductive Currency where
  | Halfpenny
  | Penny
  | Threepence
  | Sixpence
  | Shilling
  | Florin
  | HalfCrown
  | Crown
  | OnePound
  | FivePound
  | TenPound
deriving DecidableEq

/-- `Currency::from_halfpence`. -/
def Currency.from_halfpence (halfpence : Nat) : Option Currency :=
  match halfpence with
  | 1 => some .Halfpenny
  | 2 => some .Penny
  | 6 => some .Threepence
  | 12 => some .Sixpence
  | 24 => some .Shilling
  | 48 => some .Florin
  | 60 => some .HalfCrown
  | 120 => some .Crown
  | 480 => some .OnePound
  | 2400 => some .FivePound
  | 4800 => some .TenPound
  | _ => none

/-- `pub struct Wallet`: one `usize` counter per denomination. -/
structure Wallet where
  halfpence : Nat
  pennies : Nat
  threepence : Nat
  sixpence : Nat
  shillings : Nat
  florins : Nat
  half_crowns : Nat
  crowns : Nat
  one_pounds : Nat
  five_pounds : Nat
  ten_pounds : Nat
deriving DecidableEq

/-- `Wallet::default()`: every counter zero. -/
def Wallet.default : Wallet := ⟨0, 0, 0, 0, 0, 0, 0, 0, 0, 0, 0⟩

/-- `Wallet::add_currency`: increment the matching counter. -/
def Wallet.add_currency (w : Wallet) (currency : Currency) : Wallet :=
  match currency with
  | .Halfpenny => { w with halfpence := w.halfpence + 1 }
  | .Penny => { w with pennies := w.pennies + 1 }
  | .Threepence => { w with threepence := w.threepence + 1 }
  | .Sixpence => { w with sixpence := w.sixpence + 1 }
  | .Shilling => { w with shillings := w.shillings + 1 }
  | .Florin => { w with florins := w.florins + 1 }
  | .HalfCrown => { w with half_crowns := w.half_crowns + 1 }
  | .Crown => { w with crowns := w.crowns + 1 }
  | .OnePound => { w with one_pounds := w.one_pounds + 1 }
  | .FivePound => { w with five_pounds := w.five_pounds + 1 }
  | .TenPound => { w with ten_pounds := w.ten_pounds + 1 }

/-- The `usize` decrement `x -= 1` with no guard: two's-complement wrap
modulo `2 ^ 64` (release-build semantics; debug builds panic instead —
either way there is no precondition check in the source). -/
def usizeDec (x : Nat) : Nat := (x + (2 ^ 64 - 1)) % 2 ^ 64

/-- `Wallet::remove_currency`: unguarded `-= 1` on the matching counter. -/
def Wallet.remove_currency (w : Wallet) (currency : Currency) : Wallet :=
  match currency with
  | .Halfpenny => { w with halfpence := usizeDec w.halfpence }
  | .Penny => { w with pennies := usizeDec w.pennies }
  | .Threepence => { w with threepence := usizeDec w.threepence }
  | .Sixpence => { w with sixpence := usizeDec w.sixpence }
  | .Shilling => { w with shillings := usizeDec w.shillings }
  | .Florin => { w with florins := usizeDec w.florins }
  | .HalfCrown => { w with half_crowns := usizeDec w.half_crowns }
  | .Crown => { w with crowns := usizeDec w.crowns }
  | .OnePound => { w with one_pounds := usizeDec w.one_pounds }
  | .FivePound => { w with five_pounds := usizeDec w.five_pounds }
  | .TenPound => { w with ten_pounds := usizeDec w.ten_pounds }

/-- `Wallet::to_halfpence`. -/
def Wallet.to_halfpence (w : Wallet) : Nat :=
  w.halfpence
  + w.pennies * 2
  + w.threepence * 6
  + w.sixpence * 12
  + w.shillings * 24
  + w.florins * 48
  + w.half_crowns * 60
  + w.crowns * 120
  + w.one_pounds * 480
  + w.five_pounds * 2400
  + w.ten_pounds * 4800

/-- `pub struct Price`. -/
structure Price where
  pounds : Nat
  shillings : Nat
  halfpence : Nat
deriving DecidableEq

/-- `Price::default()`. -/
def Price.default : Price := ⟨0, 0, 0⟩

/-- `Price::from_halfpence`, kept faithful to the source including the
shadowing of `halfpence` in `let halfpence = halfpence % 24;` before
`let temp = halfpence / 24;`. -/
def Price.from_halfpence (halfpence : Nat) : Price :=
  let halfpence := halfpence % 24
  let temp := halfpence / 24
  let shillings := temp % 20
  ⟨temp / 20, shillings, halfpence⟩

/-- `Price::to_halfpence`. -/
def Price.to_halfpence (p : Price) : Nat :=
  p.pounds * 480 + p.shillings * 24 + p.halfpence

/-- `Price::add`. -/
def Price.add (p rhs : Price) : Price :=
  let temp := p.halfpence + rhs.halfpence
  let halfpence := temp % 24
  let temp := temp / 24 + p.shillings + rhs.shillings
  let shillings := temp % 20
  ⟨temp / 20 + p.pounds + rhs.pounds, shillings, halfpence⟩

/-- `impl Sum for Price`: `iter.fold(Price::default(), |acc, p| acc.add(p))`. -/
def Price.sumList (l : List Price) : Price :=
  l.foldl Price.add Price.default

/-- The `.map(|&c| Currency::from_halfpence(c).unwrap()).collect()` step of
`impl From<Price> for Wallet`; `none` models an `unwrap` panic. -/
def currenciesOf : List Nat → Option (List Currency)
  | [] => some []
  | c :: rest =>
    match Currency.from_halfpence c, currenciesOf rest with
    | some cur, some curs => some (cur :: curs)
    | _, _ => none

/-- `impl From<Price> for Wallet`: run `coin_change` on the global
denomination table, unwrap each value back to a `Currency`, and add them
all to a default wallet.  `none` models a panic anywhere inside. -/
def Wallet.fromPrice (value : Price) : Option Wallet :=
  (coin_change CURRENCIES_AS_HALFPENCE value.to_halfpence).bind fun l =>
    (currenciesOf l).map fun currencies =>
      currencies.foldl Wallet.add_currency Wallet.default

theorem updFn_self (f : Nat → Nat) (i x : Nat) : updFn f i x i = x := by
  simp [updFn]

theorem updFn_ne (f : Nat → Nat) (i x j : Nat) (h : j ≠ i) : updFn f i x j = f j := by
  simp [updFn, h]

theorem scanGo_ne (w : Nat) (cs : List Nat) : ∀ (i : Nat) (C P : Nat → Nat) (u : Nat),
    u ≠ w → (scanGo w cs i C P).1 u = C u ∧ (scanGo w cs i C P).2 u = P u := by
  induction cs with
  | nil => intro i C P u _; simp [scanGo]
  | cons c rest ih =>
    intro i C P u hu
    by_cases hg : c ≤ w ∧ C (w - c) + 1 < C w
    · rw [scanGo, if_pos hg]
      rcases ih (i + 1) (updFn C w (C (w - c) + 1)) (updFn P w i) u hu with ⟨h1, h2⟩
      rw [h1, h2, updFn_ne _ _ _ _ hu, updFn_ne _ _ _ _ hu]
      exact ⟨rfl, rfl⟩
    · rw [scanGo, if_neg hg]
      exact ih (i + 1) C P u hu

theorem scanGo_le (w : Nat) (cs : List Nat) : ∀ (i : Nat) (C P : Nat → Nat),
    (scanGo w cs i C P).1 w ≤ C w := by
  induction cs with
  | nil => intro i C P; simp [scanGo]
  | cons c rest ih =>
    intro i C P
    by_cases hg : c ≤ w ∧ C (w - c) + 1 < C w
    · rw [scanGo, if_pos hg]
      have h := ih (i + 1) (updFn C w (C (w - c) + 1)) (updFn P w i)
      rw [updFn_self] at h
      omega
    · rw [scanGo, if_neg hg]
      exact ih (i + 1) C P

theorem scanGo_min (w : Nat) (cs : List Nat) : ∀ (i : Nat) (C P : Nat → Nat)
    (j c : Nat), cs.get? j = some c → c ≤ w →
    (scanGo w cs i C P).1 w ≤ C (w - c) + 1 := by
  induction cs with
  | nil => intro i C P j c hj _; simp at hj
  | cons c₀ rest ih =>
    intro i C P j c hj hcw
    by_cases hg : c₀ ≤ w ∧ C (w - c₀) + 1 < C w
    · rw [scanGo, if_pos hg]
      have hle := scanGo_le w rest (i + 1) (updFn C w (C (w - c₀) + 1)) (updFn P w i)
      rw [updFn_self] at hle
      cases j with
      | zero =>
        simp only [List.get?] at hj
        cases hj
        omega
      | succ j =>
        simp only [List.get?] at hj
        by_cases hc0 : c = 0
        · subst hc0
          simp only [Nat.sub_zero]
          omega
        · have hne : w - c ≠ w := by omega
          have := ih (i + 1) (updFn C w (C (w - c₀) + 1)) (updFn P w i) j c hj hcw
          rw [updFn_ne _ _ _ _ hne] at this
          exact this
    · rw [scanGo, if_neg hg]
      cases j with
      | zero =>
        simp only [List.get?] at hj
        cases hj
        have hle := scanGo_le w rest (i + 1) C P
        omega
      | succ j =>
        simp only [List.get?] at hj
        exact ih (i + 1) C P j c hj hcw

theorem scanGo_choice (w : Nat) (cs : List Nat) : ∀ (i : Nat) (C P : Nat → Nat),
    ((scanGo w cs i C P).1 w = C w ∧ (scanGo w cs i C P).2 w = P w) ∨
    (∃ j c, cs.get? j = some c ∧ 1 ≤ c ∧ c ≤ w ∧
      (scanGo w cs i C P).2 w = i + j ∧
      (scanGo w cs i C P).1 w = C (w - c) + 1 ∧
      (scanGo w cs i C P).1 w < C w) := by
  induction cs with
  | nil => intro i C P; left; simp [scanGo]
  | cons c₀ rest ih =>
    intro i C P
    by_cases hg : c₀ ≤ w ∧ C (w - c₀) + 1 < C w
    · rw [scanGo, if_pos hg]
      have hc₀pos : 1 ≤ c₀ := by
        rcases hg with ⟨h1, h2⟩
        by_contra h
        have : c₀ = 0 := by omega
        subst this
        simp at h2
      have hne : w - c₀ ≠ w := by omega
      rcases ih (i + 1) (updFn C w (C (w - c₀) + 1)) (updFn P w i) with h | h
      · right
        rcases h with ⟨h1, h2⟩
        rw [updFn_self] at h1
        rw [updFn_self] at h2
        exact ⟨0, c₀, rfl, hc₀pos, hg.1, by omega, by rw [h1], by omega⟩
      · right
        rcases h with ⟨j, c, hj, hcpos, hcw, hP, hC, hlt⟩
        have hnec : w - c ≠ w := by omega
        rw [updFn_ne _ _ _ _ hnec] at hC
        rw [updFn_self] at hlt
        refine ⟨j + 1, c, by simpa using hj, hcpos, hcw, by omega, hC, by omega⟩
    · rw [scanGo, if_neg hg]
      rcases ih (i + 1) C P with h | h
      · left; exact h
      · right
        rcases h with ⟨j, c, hj, hcpos, hcw, hP, hC, hlt⟩
        exact ⟨j + 1, c, by simpa using hj, hcpos, hcw, by omega, hC, hlt⟩

theorem scanGo_stable (w : Nat) (cs : List Nat) (i : Nat) (C P : Nat → Nat)
    (h : (scanGo w cs i C P).1 w = C w) : (scanGo w cs i C P).2 w = P w := by
  rcases scanGo_choice w cs i C P with h' | h'
  · exact h'.2
  · rcases h' with ⟨j, c, _, _, _, _, _, hlt⟩
    omega

theorem scanGo_first (w : Nat) (cs : List Nat) : ∀ (i : Nat) (C P : Nat → Nat),
    (scanGo w cs i C P).1 w < C w →
    ∃ j c, cs.get? j = some c ∧ c ≤ w ∧
      C (w - c) + 1 = (scanGo w cs i C P).1 w ∧
      (scanGo w cs i C P).2 w = i + j ∧
      (∀ j' c', j' < j → cs.get? j' = some c' → c' ≤ w →
        (scanGo w cs i C P).1 w < C (w - c') + 1) := by
  induction cs with
  | nil => intro i C P hlt; simp [scanGo] at hlt
  | cons c₀ rest ih =>
    intro i C P hlt
    by_cases hg : c₀ ≤ w ∧ C (w - c₀) + 1 < C w
    · rw [scanGo, if_pos hg] at hlt ⊢
      set C₁ := updFn C w (C (w - c₀) + 1) with hC₁
      set P₁ := updFn P w i with hP₁
      have hC₁w : C₁ w = C (w - c₀) + 1 := updFn_self _ _ _
      have hc₀pos : 1 ≤ c₀ := by
        rcases hg with ⟨h1, h2⟩
        by_contra h
        have : c₀ = 0 := by omega
        subst this
        simp at h2
      by_cases h2 : (scanGo w rest (i + 1) C₁ P₁).1 w < C₁ w
      · rcases ih (i + 1) C₁ P₁ h2 with ⟨j, c, hj, hcw, hCc, hP, hfirst⟩
        have hcpos : 1 ≤ c := by
          by_contra h
          have hc0 : c = 0 := by omega
          subst hc0
          rw [Nat.sub_zero, hC₁w] at hCc
          omega
        have hnec : w - c ≠ w := by omega
        rw [hC₁, updFn_ne _ _ _ _ hnec] at hCc
        refine ⟨j + 1, c, by simpa using hj, hcw, hCc, by omega, ?_⟩
        intro j' c' hj' hget hc'w
        cases j' with
        | zero =>
          simp only [List.get?] at hget
          cases hget
          rw [← hC₁w]
          exact h2
        | succ j' =>
          simp only [List.get?] at hget
          have := hfirst j' c' (by omega) hget hc'w
          by_cases hc'0 : c' = 0
          · subst hc'0
            rw [Nat.sub_zero]
            have := scanGo_le w rest (i + 1) C₁ P₁
            rw [hC₁w] at this
            omega
          · have hnec' : w - c' ≠ w := by omega
            rw [hC₁, updFn_ne _ _ _ _ hnec'] at this
            exact this
      · have hle := scanGo_le w rest (i + 1) C₁ P₁
        have heq : (scanGo w rest (i + 1) C₁ P₁).1 w = C₁ w := by omega
        have hPeq := scanGo_stable w rest (i + 1) C₁ P₁ heq
        refine ⟨0, c₀, rfl, hg.1, ?_, ?_, ?_⟩
        · rw [heq, hC₁w]
        · rw [hPeq, hP₁, updFn_self]
          omega
        · intro j' c' hj' _ _
          omega
    · rw [scanGo, if_neg hg] at hlt ⊢
      rcases ih (i + 1) C P hlt with ⟨j, c, hj, hcw, hCc, hP, hfirst⟩
      refine ⟨j + 1, c, by simpa using hj, hcw, hCc, by omega, ?_⟩
      intro j' c' hj' hget hc'w
      cases j' with
      | zero =>
        simp only [List.get?] at hget
        cases hget
        have hno : ¬ (C (w - c₀) + 1 < C w) := fun hcon => hg ⟨hc'w, hcon⟩
        omega
      | succ j' =>
        simp only [List.get?] at hget
        exact hfirst j' c' (by omega) hget hc'w

/-- Invariant of the DP tables after the outer loop has processed the
amounts `2, …, m` (for `m = 1`, nothing yet): `C u` never exceeds the
initial bound `u`, is positive for positive `u`, amounts beyond `m` are
untouched, processed amounts satisfy the minimum recurrence, and every
positive processed amount has a recorded denomination that realises its
cost.  The `choice` field relies on the first denomination being `1`
(otherwise the source's default `P[w] = 0` is wrong). -/
structure TablesInv (coins : List Nat) (m : Nat) (C P : Nat → Nat) : Prop where
  upper : ∀ u, C u ≤ u
  pos : ∀ u, 1 ≤ u → 1 ≤ C u
  untouched : ∀ u, m < u → C u = u ∧ P u = 0
  recur : ∀ w, 2 ≤ w → w ≤ m → ∀ j c, coins.get? j = some c → c ≤ w →
    C w ≤ C (w - c) + 1
  choice : ∀ w, 1 ≤ w → w ≤ m → ∃ j c, coins.get? j = some c ∧ c ≤ w ∧
    P w = j ∧ C w = C (w - c) + 1

theorem tablesInv_base (coins : List Nat) (hc : coins.get? 0 = some 1) :
    TablesInv coins 1 (updFn (fun u => u) 1 1) (fun _ => 0) := by
  have hid : ∀ u, updFn (fun u => u) 1 1 u = u := by
    intro u
    by_cases h : u = 1
    · subst h; simp [updFn]
    · simp [updFn, h]
  refine ⟨?_, ?_, ?_, ?_, ?_⟩
  · intro u; rw [hid]
  · intro u hu; rw [hid]; exact hu
  · intro u _; exact ⟨hid u, rfl⟩
  · intro w h2 h1; omega
  · intro w h1 h2
    have hw : w = 1 := by omega
    subst hw
    exact ⟨0, 1, hc, le_refl 1, rfl, by rw [hid, hid]⟩

theorem tablesInv_step (coins : List Nat) (hc : coins.get? 0 = some 1)
    (m : Nat) (hm : 1 ≤ m) (C P : Nat → Nat) (hInv : TablesInv coins m C P) :
    TablesInv coins (m + 1) (scanGo (m + 1) coins 0 C P).1
      (scanGo (m + 1) coins 0 C P).2 := by
  set w₀ := m + 1 with hw₀
  have hCw₀ : C w₀ = w₀ := (hInv.untouched w₀ (by omega)).1
  have hPw₀ : P w₀ = 0 := (hInv.untouched w₀ (by omega)).2
  have hne : ∀ u, u ≠ w₀ → (scanGo w₀ coins 0 C P).1 u = C u ∧
      (scanGo w₀ coins 0 C P).2 u = P u := fun u hu => scanGo_ne w₀ coins 0 C P u hu
  refine ⟨?_, ?_, ?_, ?_, ?_⟩
  · intro u
    by_cases hu : u = w₀
    · subst hu
      have := scanGo_le w₀ coins 0 C P
      omega
    · rw [(hne u hu).1]; exact hInv.upper u
  · intro u hu
    by_cases hu' : u = w₀
    · subst hu'
      rcases scanGo_choice w₀ coins 0 C P with h | h
      · rw [h.1]; exact hInv.pos _ hu
      · rcases h with ⟨j, c, _, _, _, _, hC, _⟩
        omega
    · rw [(hne u hu').1]; exact hInv.pos u hu
  · intro u hu
    have hu' : u ≠ w₀ := by omega
    rw [(hne u hu').1, (hne u hu').2]
    exact hInv.untouched u (by omega)
  · intro w h2 hw j c hj hcw
    by_cases hw' : w = w₀
    · subst hw'
      have hmin := scanGo_min w₀ coins 0 C P j c hj hcw
      by_cases hc0 : c = 0
      · subst hc0
        simp only [Nat.sub_zero]
        omega
      · have hne' : w₀ - c ≠ w₀ := by omega
        rw [(hne _ hne').1]
        exact hmin
    · have hwm : w ≤ m := by omega
      have hnew : w ≠ w₀ := hw'
      have hnewc : w - c ≠ w₀ := by omega
      rw [(hne w hnew).1, (hne _ hnewc).1]
      exact hInv.recur w h2 hwm j c hj hcw
  · intro w h1 hw
    by_cases hw' : w = w₀
    · subst hw'
      rcases scanGo_choice w₀ coins 0 C P with h | h
      · -- no denomination strictly improved `C[w]`; since the first
        -- denomination is `1` and `C[w-1] + 1` is never below `C[w] = w`,
        -- the default `P[w] = 0` still realises the cost.
        rcases h with ⟨hCeq, hPeq⟩
        have hmin := scanGo_min w₀ coins 0 C P 0 1 hc (by omega)
        have hCm : C (w₀ - 1) = w₀ - 1 := by
          have hup := hInv.upper (w₀ - 1)
          omega
        refine ⟨0, 1, hc, by omega, by rw [hPeq, hPw₀], ?_⟩
        have hne1 : w₀ - 1 ≠ w₀ := by omega
        rw [hCeq, hCw₀, (hne _ hne1).1, hCm]
        omega
      · rcases h with ⟨j, c, hj, hcpos, hcw, hP, hC, _⟩
        have hnec : w₀ - c ≠ w₀ := by omega
        refine ⟨j, c, hj, hcw, by omega, ?_⟩
        rw [hC, (hne _ hnec).1]
    · have hwm : w ≤ m := by omega
      rcases hInv.choice w h1 hwm with ⟨j, c, hj, hcw, hP, hC⟩
      have hnew : w ≠ w₀ := hw'
      have hnewc : w - c ≠ w₀ := by omega
      refine ⟨j, c, hj, hcw, ?_, ?_⟩
      · rw [(hne w hnew).2]; exact hP
      · rw [(hne w hnew).1, (hne _ hnewc).1]; exact hC

theorem tablesInv_fold (coins : List Nat) (hc : coins.get? 0 = some 1) :
    ∀ (n m : Nat) (CP : (Nat → Nat) × (Nat → Nat)), 1 ≤ m →
    TablesInv coins m CP.1 CP.2 →
    TablesInv coins (m + n)
      ((List.range' (m + 1) n).foldl (fun CP w => scanGo w coins 0 CP.1 CP.2) CP).1
      ((List.range' (m + 1) n).foldl (fun CP w => scanGo w coins 0 CP.1 CP.2) CP).2 := by
  intro n
  induction n with
  | zero => intro m CP hm hInv; simpa using hInv
  | succ n ih =>
    intro m CP hm hInv
    rw [List.range'_succ]
    simp only [List.foldl_cons]
    have hstep := tablesInv_step coins hc m hm CP.1 CP.2 hInv
    have harith : m + (n + 1) = (m + 1) + n := by omega
    rw [harith]
    have := ih (m + 1) (scanGo (m + 1) coins 0 CP.1 CP.2) (by omega) hstep
    simpa using this

theorem tablesInv_build (coins : List Nat) (hc : coins.get? 0 = some 1)
    (v : Nat) (hv : 1 ≤ v) :
    TablesInv coins v (buildTables coins v).1 (buildTables coins v).2 := by
  have hbase := tablesInv_base coins hc
  have h := tablesInv_fold coins hc (v - 1) 1
    (updFn (fun u => u) 1 1, fun _ => 0) (le_refl 1) hbase
  have harith : 1 + (v - 1) = v := by omega
  rw [harith] at h
  exact h

/-- The final cost table is a lower bound on the size of every exact
decomposition: any list of denominations summing to `w ≤ v` has at least
`C w` elements. -/
theorem cost_le_decomp (coins : List Nat) (v : Nat) (C P : Nat → Nat)
    (hInv : TablesInv coins v C P) :
    ∀ xs : List Nat, (∀ x ∈ xs, x ∈ coins) → xs.sum ≤ v → C xs.sum ≤ xs.length := by
  intro xs
  induction xs with
  | nil =>
    intro _ _
    simpa using hInv.upper 0
  | cons x rest ih =>
    intro hmem hsum
    rw [List.sum_cons] at hsum ⊢
    have hrest := ih (fun y hy => hmem y (List.mem_cons_of_mem x hy)) (by omega)
    by_cases hx0 : x = 0
    · subst hx0
      simp only [Nat.zero_add, List.length_cons]
      omega
    · by_cases hs1 : x + rest.sum = 1
      · have := hInv.upper (x + rest.sum)
        simp only [List.length_cons]
        omega
      · have hxmem : x ∈ coins := hmem x (List.mem_cons_self x rest)
        rcases List.mem_iff_get?.mp hxmem with ⟨j, hj⟩
        have h2 : 2 ≤ x + rest.sum := by omega
        have := hInv.recur (x + rest.sum) h2 hsum j x hj (by omega)
        have hsub : x + rest.sum - x = rest.sum := by omega
        rw [hsub] at this
        simp only [List.length_cons]
        omega

/-- Total halfpence value recorded in the usage counts `S` over the first
`k` denominations. -/
def sWeight (coins : List Nat) (S : Nat → Nat) (k : Nat) : Nat :=
  ((List.range k).map (fun i => S i * coins.getD i 0)).sum

/-- Total number of pieces recorded in the usage counts `S` over the first
`k` denominations. -/
def sCount (S : Nat → Nat) (k : Nat) : Nat :=
  ((List.range k).map S).sum

theorem sum_range_update (k j d : Nat) (f g : Nat → Nat) (hj : j < k)
    (hfg : ∀ i, i ≠ j → g i = f i) (hgj : g j = f j + d) :
    ((List.range k).map g).sum = ((List.range k).map f).sum + d := by
  induction k with
  | zero => omega
  | succ k ih =>
    rw [List.range_succ, List.map_append, List.map_append, List.sum_append,
      List.sum_append]
    by_cases hjk : j = k
    · subst hjk
      have hmap : (List.range j).map g = (List.range j).map f := by
        apply List.map_congr_left
        intro a ha
        exact hfg a (by have := List.mem_range.mp ha; omega)
      rw [hmap]
      simp only [List.map_cons, List.map_nil, List.sum_cons, List.sum_nil]
      omega
    · have hjk' : j < k := by omega
      rw [ih hjk']
      simp only [List.map_cons, List.map_nil, List.sum_cons, List.sum_nil]
      rw [hfg k (by omega)]
      omega

theorem sWeight_update (coins : List Nat) (S : Nat → Nat) (k j : Nat)
    (hj : j < k) :
    sWeight coins (updFn S j (S j + 1)) k = sWeight coins S k + coins.getD j 0 := by
  apply sum_range_update k j (coins.getD j 0)
    (fun i => S i * coins.getD i 0) (fun i => updFn S j (S j + 1) i * coins.getD i 0) hj
  · intro i hi
    rw [updFn_ne _ _ _ _ hi]
  · rw [updFn_self]
    ring

theorem sCount_update (S : Nat → Nat) (k j : Nat) (hj : j < k) :
    sCount (updFn S j (S j + 1)) k = sCount S k + 1 := by
  apply sum_range_update k j 1 S (updFn S j (S j + 1)) hj
  · intro i hi
    rw [updFn_ne _ _ _ _ hi]
  · rw [updFn_self]

/-- Correctness of the reconstruction loop: starting from any amount
`n ≤ v` with enough fuel, it terminates with usage counts whose total
value grew by exactly `n` and whose total piece count grew by exactly
`C n`. -/
theorem reconstruct_spec (coins : List Nat) (v : Nat) (C P : Nat → Nat)
    (hInv : TablesInv coins v C P) :
    ∀ (fuel n : Nat) (S : Nat → Nat), n ≤ v → n ≤ fuel →
    ∃ S', reconstruct coins P fuel n S = some S' ∧
      sWeight coins S' coins.length = sWeight coins S coins.length + n ∧
      sCount S' coins.length = sCount S coins.length + C n := by
  intro fuel
  induction fuel with
  | zero =>
    intro n S hnv hnf
    have hn0 : n = 0 := by omega
    subst hn0
    refine ⟨S, by simp [reconstruct], by omega, ?_⟩
    have := hInv.upper 0
    omega
  | succ fuel ih =>
    intro n S hnv hnf
    by_cases hn0 : n = 0
    · subst hn0
      refine ⟨S, by simp [reconstruct], by omega, ?_⟩
      have := hInv.upper 0
      omega
    · rcases hInv.choice n (by omega) hnv with ⟨j, c, hj, hcn, hPn, hCn⟩
      have hcpos : 1 ≤ c := by
        by_contra h
        have hc0 : c = 0 := by omega
        subst hc0
        rw [Nat.sub_zero] at hCn
        omega
      have hjlt : j < coins.length := (List.get?_eq_some.mp hj).1
      rcases ih (n - c) (updFn S (P n) (S (P n) + 1)) (by omega) (by omega)
        with ⟨S', hrec, hw, hcnt⟩
      refine ⟨S', ?_, ?_, ?_⟩
      · rw [hPn] at hrec
        simp only [reconstruct, if_neg hn0, hPn, hj]
        rw [if_pos hcn]
        exact hrec
      · rw [hw, hPn, sWeight_update coins S coins.length j hjlt]
        have hgd : coins.getD j 0 = c := by
          rw [List.getD_eq_get?, hj]
          rfl
        rw [hgd]
        omega
      · rw [hcnt, hPn, sCount_update S coins.length j hjlt]
        omega

theorem emitDown_sum (coins : List Nat) (S : Nat → Nat) :
    ∀ k, (emitDown coins S k).sum = sWeight coins S k := by
  intro k
  induction k with
  | zero => simp [emitDown, sWeight]
  | succ k ih =>
    rw [emitDown, List.sum_append, ih]
    simp only [sWeight, List.range_succ, List.map_append, List.sum_append,
      List.map_cons, List.map_nil, List.sum_cons, List.sum_nil,
      List.sum_replicate, smul_eq_mul]
    omega

theorem emitDown_length (coins : List Nat) (S : Nat → Nat) :
    ∀ k, (emitDown coins S k).length = sCount S k := by
  intro k
  induction k with
  | zero => simp [emitDown, sCount]
  | succ k ih =>
    rw [emitDown, List.length_append, ih]
    simp only [sCount, List.range_succ, List.map_append, List.sum_append,
      List.map_cons, List.map_nil, List.sum_cons, List.sum_nil,
      List.length_replicate]
    omega

theorem emitDown_mem (coins : List Nat) (S : Nat → Nat) :
    ∀ k x, x ∈ emitDown coins S k → ∃ i, i < k ∧ x = coins.getD i 0 := by
  intro k
  induction k with
  | zero => intro x hx; simp [emitDown] at hx
  | succ k ih =>
    intro x hx
    rw [emitDown, List.mem_append] at hx
    rcases hx with hx | hx
    · exact ⟨k, by omega, List.eq_of_mem_replicate hx⟩
    · rcases ih x hx with ⟨i, hik, hxi⟩
      exact ⟨i, by omega, hxi⟩

theorem emitDown_sorted (coins : List Nat) (S : Nat → Nat)
    (hs : List.Sorted (· ≤ ·) coins) :
    ∀ k, k ≤ coins.length → List.Sorted (· ≥ ·) (emitDown coins S k) := by
  intro k
  induction k with
  | zero => intro _; simp [emitDown, List.Sorted]
  | succ k ih =>
    intro hk
    rw [emitDown]
    rw [List.Sorted, List.pairwise_append]
    refine ⟨?_, ih (by omega), ?_⟩
    · -- a block of equal values is trivially sorted
      clear ih hk
      induction S k with
      | zero => simp
      | succ n ihn =>
        rw [List.replicate_succ]
        refine List.Pairwise.cons ?_ ihn
        intro b hb
        rw [List.eq_of_mem_replicate hb]
    · intro a ha b hb
      have hak : a = coins.getD k 0 := List.eq_of_mem_replicate ha
      rcases emitDown_mem coins S k b hb with ⟨i, hik, hbi⟩
      have hi : i < coins.length := by omega
      have hklen : k < coins.length := by omega
      have hget := List.pairwise_iff_get.mp hs ⟨i, hi⟩ ⟨k, hklen⟩ (by simpa using hik)
      have hgd1 : coins.getD i 0 = coins.get ⟨i, hi⟩ := by
        rw [List.getD_eq_get?, List.get?_eq_get hi]
        rfl
      have hgd2 : coins.getD k 0 = coins.get ⟨k, hklen⟩ := by
        rw [List.getD_eq_get?, List.get?_eq_get hklen]
        rfl
      rw [hak, hbi, hgd1, hgd2]
      exact hget

theorem sWeight_zero (coins : List Nat) (k : Nat) :
    sWeight coins (fun _ => 0) k = 0 := by
  simp [sWeight]

theorem sCount_zero (k : Nat) : sCount (fun _ => 0) k = 0 := by
  simp [sCount]

/-- Full behaviour of `coin_change` when the first denomination is `1`:
it returns normally, the result sums to the target, and its length is the
final table cost `C target`, which is minimal among all exact
decompositions. -/
theorem coin_change_some (coins : List Nat) (target : Nat)
    (hc : coins.get? 0 = some 1) :
    ∃ l, coin_change coins target = some l ∧ l.sum = target ∧
      (∀ xs : List Nat, (∀ x ∈ xs, x ∈ coins) → xs.sum = target →
        l.length ≤ xs.length) := by
  by_cases h0 : target = 0
  · subst h0
    refine ⟨[], by simp [coin_change], rfl, ?_⟩
    intro xs _ _
    simp
  · have hInv := tablesInv_build coins hc target (by omega)
    rcases reconstruct_spec coins target (buildTables coins target).1
        (buildTables coins target).2 hInv target target (fun _ => 0)
        (le_refl target) (le_refl target) with ⟨S', hrec, hw, hcnt⟩
    rw [sWeight_zero, Nat.zero_add] at hw
    rw [sCount_zero, Nat.zero_add] at hcnt
    refine ⟨emitDown coins S' coins.length, ?_, ?_, ?_⟩
    · rw [coin_change, if_neg h0, hrec]
    · rw [emitDown_sum, hw]
    · intro xs hxs hsum
      rw [emitDown_length, hcnt]
      have := cost_le_decomp coins target (buildTables coins target).1
        (buildTables coins target).2 hInv xs hxs (by omega)
      rw [hsum] at this
      exact this

/-- Whenever `coin_change` returns a list, every element of it was copied
out of the input denomination slice. -/
theorem coin_change_mem (coins : List Nat) (target : Nat) (l : List Nat)
    (h : coin_change coins target = some l) : ∀ x ∈ l, x ∈ coins := by
  rw [coin_change] at h
  by_cases h0 : target = 0
  · rw [if_pos h0] at h
    cases h
    intro x hx
    simp at hx
  · rw [if_neg h0] at h
    rcases hrec : reconstruct coins (buildTables coins target).2 target target
        (fun _ => 0) with _ | S
    · rw [hrec] at h
      cases h
    · rw [hrec] at h
      cases h
      intro x hx
      rcases emitDown_mem coins S coins.length x hx with ⟨i, hik, hxi⟩
      have hgd : coins.getD i 0 = coins.get ⟨i, hik⟩ := by
        rw [List.getD_eq_get?, List.get?_eq_get hik]
        rfl
      rw [hxi, hgd]
      exact List.get_mem coins i hik

/-- Whenever `coin_change` returns a list and the input slice is sorted
ascending, the result is sorted descending. -/
theorem coin_change_sorted_of_sorted (coins : List Nat) (target : Nat)
    (l : List Nat) (hs : List.Sorted (· ≤ ·) coins)
    (h : coin_change coins target = some l) : List.Sorted (· ≥ ·) l := by
  rw [coin_change] at h
  by_cases h0 : target = 0
  · rw [if_pos h0] at h
    cases h
    simp [List.Sorted]
  · rw [if_neg h0] at h
    rcases hrec : reconstruct coins (buildTables coins target).2 target target
        (fun _ => 0) with _ | S
    · rw [hrec] at h
      cases h
    · rw [hrec] at h
      cases h
      exact emitDown_sorted coins S hs coins.length (le_refl _)

theorem currenciesOf_isSome : ∀ l : List Nat,
    (∀ x ∈ l, (Currency.from_halfpence x).isSome) → (currenciesOf l).isSome := by
  intro l
  induction l with
  | nil => intro _; simp [currenciesOf]
  | cons c rest ih =>
    intro h
    have hc := h c (List.mem_cons_self c rest)
    have hrest := ih (fun x hx => h x (List.mem_cons_of_mem c hx))
    rcases hcur : Currency.from_halfpence c with _ | cur
    · rw [hcur] at hc; simp at hc
    · rcases hcs : currenciesOf rest with _ | curs
      · rw [hcs] at hrest; simp at hrest
      · simp [currenciesOf, hcur, hcs]

/-- C1 counterexample: `[5, 1]` contains the value `1`, yet on target `3`
the reconstruction loop selects `coins[P[3]] = coins[0] = 5` (the coin `1`
never records a choice, since its candidate cost only ties the initial
bound `C[w] = w` and the update comparison is strict), underflows
`v -= coins[i]`, and the call panics instead of returning a decomposition. -/
theorem coin_change_one_not_first : (1 : Nat) ∈ ([5, 1] : List Nat) ∧
    coin_change [5, 1] 3 = none := by decide

/-- C1 (amended): for every denomination set whose FIRST element is `1`
and every non-negative target, `coin_change` returns a sequence whose sum
equals the target exactly. -/
theorem coin_change_sum_eq_target (coins : List Nat) (target : Nat)
    (hc : coins.get? 0 = some 1) :
    ∃ l, coin_change coins target = some l ∧ l.sum = target := by
  rcases coin_change_some coins target hc with ⟨l, hl, hsum, _⟩
  exact ⟨l, hl, hsum⟩

theorem coin_change_sum_eq_target_witness :
    (([1, 5, 7] : List Nat).get? 0 = some 1) ∧
    ∃ l, coin_change [1, 5, 7] 20 = some l ∧ l.sum = 20 :=
  ⟨by decide, coin_change_sum_eq_target [1, 5, 7] 20 (by decide)⟩

/-- C2 counterexample: `[3, 1]` contains the value `1`, yet on target `2`
the call panics (underflow of `v -= coins[0]` with `coins[0] = 3 > 2`), so
the returned-count-is-minimal claim fails: nothing is returned at all. -/
theorem coin_change_min_not_first : (1 : Nat) ∈ ([3, 1] : List Nat) ∧
    coin_change [3, 1] 2 = none := by decide

/-- C2 (amended): for every denomination set whose FIRST element is `1`
and every non-negative target, the returned sequence has at most as many
elements as any other exact decomposition over that set. -/
theorem coin_change_minimal (coins : List Nat) (target : Nat)
    (l xs : List Nat) (hc : coins.get? 0 = some 1)
    (hl : coin_change coins target = some l)
    (hxs : ∀ x ∈ xs, x ∈ coins) (hsum : xs.sum = target) :
    l.length ≤ xs.length := by
  rcases coin_change_some coins target hc with ⟨l₀, h₀, _, hmin⟩
  rw [hl] at h₀
  have := Option.some.inj h₀
  subst this
  exact hmin xs hxs hsum

theorem coin_change_minimal_witness :
    ([3, 3] : List Nat).length ≤ ([4, 1, 1] : List Nat).length :=
  coin_change_minimal [1, 3, 4] 6 [3, 3] [4, 1, 1]
    (by decide) (by decide) (by decide) (by decide)

/-- C3: on denominations `[5, 10]` and the unreachable target `7`, the
source does not report infeasibility as a distinct outcome: the
reconstruction loop reaches `v = 2` and `v -= coins[0]` underflows, so the
call panics (`none` in the model) instead of signalling "no solution". -/
theorem coin_change_infeasible_panics : coin_change [5, 10] 7 = none := by
  decide

/-- C4 counterexample: on the unsorted denomination slice `[1, 7, 5]` and
target `12` the result is `[5, 7]`, which is emitted by descending
position in the slice, not by descending value, so it is not sorted
largest-to-smallest. -/
theorem coin_change_unsorted_not_descending :
    coin_change [1, 7, 5] 12 = some [5, 7] ∧
    ¬ List.Sorted (· ≥ ·) ([5, 7] : List Nat) := by
  constructor
  · decide
  · intro h
    have := List.rel_of_sorted_cons h 7 (by simp)
    omega

/-- C4 (amended): the output is emitted by descending index into the input
slice, so whenever the input slice is sorted ascending (as the reference
denomination set is), any returned sequence is sorted descending by value,
with equal values necessarily contiguous. -/
theorem coin_change_descending (coins : List Nat) (target : Nat)
    (l : List Nat) (hs : List.Sorted (· ≤ ·) coins)
    (h : coin_change coins target = some l) : List.Sorted (· ≥ ·) l :=
  coin_change_sorted_of_sorted coins target l hs h

theorem coin_change_descending_witness :
    List.Sorted (· ≥ ·) ([7, 7, 5, 1] : List Nat) :=
  coin_change_descending [1, 5, 7] 20 [7, 7, 5, 1] (by decide) (by decide)

/-- C5: in the inner scan of the DP table construction, whenever some
denomination strictly improved `C[w]`, the recorded choice `P[w]` is the
index of the first denomination (in the set's order) whose candidate cost
equals the final optimal `C[w]` — every earlier denomination's candidate
is strictly worse — so a later denomination that merely ties the recorded
cost never overwrites the recorded choice (the update comparison is a
strict less-than). -/
theorem scan_tie_break (coins : List Nat) (w : Nat) (C P : Nat → Nat)
    (hlt : (scanGo w coins 0 C P).1 w < C w) :
    ∃ j c, coins.get? j = some c ∧ c ≤ w ∧
      C (w - c) + 1 = (scanGo w coins 0 C P).1 w ∧
      (scanGo w coins 0 C P).2 w = j ∧
      ∀ j' c', j' < j → coins.get? j' = some c' → c' ≤ w →
        (scanGo w coins 0 C P).1 w < C (w - c') + 1 := by
  rcases scanGo_first w coins 0 C P hlt with ⟨j, c, hj, hcw, hC, hP, hfirst⟩
  exact ⟨j, c, hj, hcw, hC, by simpa using hP, hfirst⟩

theorem scan_tie_break_witness :
    ∃ j c, ([1, 3] : List Nat).get? j = some c ∧ c ≤ 4 ∧
      (fun u => if u = 3 then 1 else u) (4 - c) + 1 =
        (scanGo 4 [1, 3] 0 (fun u => if u = 3 then 1 else u) (fun _ => 0)).1 4 ∧
      (scanGo 4 [1, 3] 0 (fun u => if u = 3 then 1 else u) (fun _ => 0)).2 4 = j ∧
      ∀ j' c', j' < j → ([1, 3] : List Nat).get? j' = some c' → c' ≤ 4 →
        (scanGo 4 [1, 3] 0 (fun u => if u = 3 then 1 else u) (fun _ => 0)).1 4 <
          (fun u => if u = 3 then 1 else u) (4 - c') + 1 :=
  scan_tie_break [1, 3] 4 (fun u => if u = 3 then 1 else u) (fun _ => 0)
    (by decide)

/-- C6: for every valid (non-empty, positive-valued) denomination set,
`coin_change` on target `0` returns the empty sequence: the function
returns `vec![]` before touching any table. -/
theorem coin_change_target_zero (coins : List Nat) (h1 : coins ≠ [])
    (h2 : ∀ c ∈ coins, 0 < c) : coin_change coins 0 = some [] := by
  simp [coin_change]

theorem coin_change_target_zero_witness : coin_change [1] 0 = some [] :=
  coin_change_target_zero [1] (by decide) (by decide)

/-- C7: summing `Price` values by repeated pairwise `Price::add` does NOT
equal converting to halfpence, summing, and converting back: the
shadowed `halfpence` in `Price::from_halfpence` makes `temp = (h % 24) / 24
= 0`, so pounds and shillings are always dropped.  Already the singleton
collection holding one shilling separates the two sides: pairwise
summation keeps `Price(0, 1, 0)` (24 halfpence), while the integer path
computes `from_halfpence 24 = Price(0, 0, 0)`. -/
theorem price_sum_roundtrip_fails :
    Price.sumList [Price.mk 0 1 0] = Price.mk 0 1 0 ∧
    (([Price.mk 0 1 0].map Price.to_halfpence).sum = 24) ∧
    Price.from_halfpence 24 = Price.mk 0 0 0 ∧
    Price.sumList [Price.mk 0 1 0] ≠
      Price.from_halfpence (([Price.mk 0 1 0].map Price.to_halfpence).sum) := by
  decide

/-- C8: on the non-canonical set `[1, 3, 4]` and target `6`, `coin_change`
returns `[3, 3]` (count 2), and 2 is minimal: every exact decomposition
over `[1, 3, 4]` of `6` has at least 2 elements (in particular the greedy
`[4, 1, 1]` with 3 pieces is not returned). -/
theorem coin_change_non_canonical :
    coin_change [1, 3, 4] 6 = some [3, 3] ∧
    ∀ xs : List Nat, (∀ x ∈ xs, x ∈ ([1, 3, 4] : List Nat)) → xs.sum = 6 →
      2 ≤ xs.length := by
  constructor
  · decide
  · intro xs hxs hsum
    rcases coin_change_some [1, 3, 4] 6 (by decide) with ⟨l, hl, _, hmin⟩
    have h2 : coin_change [1, 3, 4] 6 = some [3, 3] := by decide
    rw [h2] at hl
    have heq := Option.some.inj hl
    have := hmin xs hxs hsum
    rw [← heq] at this
    simpa using this

theorem coin_change_non_canonical_witness :
    2 ≤ ([4, 1, 1] : List Nat).length :=
  coin_change_non_canonical.2 [4, 1, 1] (by decide) (by decide)

/-- C9: `Wallet::remove_currency` on a wallet holding zero pieces of the
given currency performs an unguarded `-= 1`: no precondition failure is
surfaced, and under `usize` wrap-around semantics (release builds; debug
builds abort with a generic overflow panic, still not a precondition
check) the counter wraps to `2 ^ 64 - 1`. -/
theorem remove_currency_wraps :
    (Wallet.default.remove_currency Currency.Halfpenny).halfpence =
      2 ^ 64 - 1 := by
  decide

/-- C10: every element of a returned decomposition is an element of the
input slice; consequently, in the `From<Price> for Wallet` conversion,
`Currency::from_halfpence` succeeds on every element produced from
`CURRENCIES_AS_HALFPENCE` (whose first element is `1`, so `coin_change`
always returns), and the `unwrap` never panics. -/
theorem coin_change_elements_from_input :
    (∀ (coins : List Nat) (target : Nat) (l : List Nat),
      coin_change coins target = some l → ∀ x ∈ l, x ∈ coins) ∧
    ∀ p : Price, (Wallet.fromPrice p).isSome := by
  constructor
  · exact coin_change_mem
  · intro p
    rcases coin_change_some CURRENCIES_AS_HALFPENCE p.to_halfpence (by decide)
      with ⟨l, hl, _, _⟩
    have hmem := coin_change_mem CURRENCIES_AS_HALFPENCE p.to_halfpence l hl
    have hall : ∀ x ∈ CURRENCIES_AS_HALFPENCE,
        (Currency.from_halfpence x).isSome := by decide
    have hsome := currenciesOf_isSome l (fun x hx => hall x (hmem x hx))
    rw [Wallet.fromPrice, hl]
    rcases hcs : currenciesOf l with _ | curs
    · rw [hcs] at hsome
      simp at hsome
    · simp [Option.bind, hcs]

theorem coin_change_elements_from_input_witness :
    (7 : Nat) ∈ ([1, 5, 7] : List Nat) :=
  coin_change_elements_from_input.1 [1, 5, 7] 20 [7, 7, 5, 1]
    (by decide) 7 (by decide)
